import Mathlib

/-! ## imongo: request-path resolution and size-directive parsing (`handler.go`)

A shallow embedding of `ImgHandler.convertPath`, `ImgHandler.getNameAndSize` and of the
size decision of `ImgHandler.handlePOST`, together with the Go library functions they call.

Modelling conventions.

* A Go `string` is a list of Unicode code points (`List Char`); the substrings the code
  searches for (`"__"`, `"/"`, `"x"`, `"z"`, `"."`, `" "`) are ASCII, so code-point offsets
  and byte offsets select the same slices.
* `strings.ToLower` maps `unicode.ToLower` over the code points.  The case table of the Go
  library is a parameter `lower : Char → Char`; `asciiLower` is the instance that agrees
  with it on ASCII.
* Go `int` is 64 bits wide (`intSize`).
* A run-time panic (slice or index out of range) is the result `none`.
-/

namespace Imongo

/-! ## Go library: `strings` -/

/-- Go `strings.ToLower`, over the case mapping `lower` of single code points. -/
def ToLower (lower : Char → Char) (s : List Char) : List Char :=
  s.map lower

/-- The ASCII part of `unicode.ToLower`: `A`..`Z` go to `a`..`z`, all else is unchanged. -/
def asciiLower (c : Char) : Char :=
  if 65 ≤ c.toNat ∧ c.toNat ≤ 90 then Char.ofNat (c.toNat + 32) else c

/-- Go `strings.Split(s, sep)` for a separator of one character. -/
def Split : List Char → Char → List (List Char)
  | [], _ => [[]]
  | c :: cs, sep =>
    if c = sep then [] :: Split cs sep
    else
      match Split cs sep with
      | [] => [[c]]
      | piece :: pieces => (c :: piece) :: pieces

/-- Go `strings.Join(elems, sep)`. -/
def Join (elems : List (List Char)) (sep : List Char) : List Char :=
  sep.intercalate elems

/-- Go `strings.TrimFunc`: drops the leading and the trailing characters that satisfy `f`. -/
def TrimFunc (s : List Char) (f : Char → Bool) : List Char :=
  ((s.dropWhile f).reverse.dropWhile f).reverse

/-- Go `strings.Trim(s, cutset)`: drops the leading and trailing characters found in
`cutset`. -/
def Trim (s cutset : List Char) : List Char :=
  TrimFunc s (fun c => cutset.contains c)

/-- Go `strings.LastIndex(s, substr)`: the offset of the last occurrence, `-1` when there
is none. -/
def LastIndex : List Char → List Char → Int
  | [], substr => if substr = [] then 0 else -1
  | c :: cs, substr =>
    if 0 ≤ LastIndex cs substr then LastIndex cs substr + 1
    else if substr.isPrefixOf (c :: cs) then 0
    else -1

/-- Go `strings.Contains(s, substr)` for a substring of one character. -/
def Contains (s : List Char) (c : Char) : Bool :=
  s.contains c

/-- Go `strings.TrimSuffix(s, suffix)`. -/
def TrimSuffix (s suffix : List Char) : List Char :=
  if suffix.isSuffixOf s then s.take (s.length - suffix.length) else s

/-! ## Go library: `path/filepath` -/

/-- The loop of `filepath.Ext`: walks the path from its end, `rev` is what is still to be
visited (last character first) and `acc` what has been passed. -/
def extLoop : List Char → List Char → List Char
  | [], _ => []
  | c :: rev, acc =>
    if c = '/' then []
    else if c = '.' then c :: acc
    else extLoop rev (c :: acc)

/-- Go `filepath.Ext(path)` with the separator `/`: the suffix that starts at the last dot
of the last path element, empty when there is no such dot. -/
def Ext (path : List Char) : List Char :=
  extLoop path.reverse []

/-! ## Go library: `strconv` -/

/-- The two errors of `strconv`. -/
inductive NumError where
  | ErrSyntax
  | ErrRange
  deriving DecidableEq, Repr

/-- Width of Go `int` in bits. -/
def intSize : Nat := 64

/-- The digit loop of `strconv.ParseUint(s, 10, 64)`; `n` is the value read so far, held
in a `uint64`. -/
def parseUintLoop : List Char → Nat → Nat × Option NumError
  | [], n => (n, none)
  | c :: cs, n =>
    if 48 ≤ c.toNat ∧ c.toNat ≤ 57 then
      if n ≥ (2 ^ 64 - 1) / 10 + 1 then (2 ^ 64 - 1, some NumError.ErrRange)
      else
        let n10 := (n * 10) % 2 ^ 64
        let n1 := (n10 + (c.toNat - 48)) % 2 ^ 64
        if n1 < n10 ∨ n1 > 2 ^ 64 - 1 then (2 ^ 64 - 1, some NumError.ErrRange)
        else parseUintLoop cs n1
    else (0, some NumError.ErrSyntax)

/-- Go `strconv.ParseUint(s, 10, 64)`. -/
def ParseUint (s : List Char) : Nat × Option NumError :=
  if s = [] then (0, some NumError.ErrSyntax) else parseUintLoop s 0

/-- The range check that ends `strconv.ParseInt(s, 10, 0)`: `un` is the magnitude read by
`ParseUint`, `neg` tells whether a `-` came first. -/
def signedOfUint (neg : Bool) (un : Nat) : Int × Option NumError :=
  let cutoff : Nat := 2 ^ (intSize - 1)
  if neg = false ∧ un ≥ cutoff then (((cutoff - 1 : Nat) : Int), some NumError.ErrRange)
  else if neg = true ∧ un > cutoff then (-(cutoff : Int), some NumError.ErrRange)
  else (if neg = true then -(un : Int) else (un : Int), none)

/-- Go `strconv.ParseInt(s, 10, 0)`: the value and the error, the value being the nearest
bound of `int` on a range error and `0` on a syntax error. -/
def ParseInt (s : List Char) : Int × Option NumError :=
  match s with
  | [] => (0, some NumError.ErrSyntax)
  | c :: cs =>
    let neg : Bool := c = '-'
    let digits := if c = '+' ∨ c = '-' then cs else c :: cs
    match ParseUint digits with
    | (_, some NumError.ErrSyntax) => (0, some NumError.ErrSyntax)
    | (un, _) => signedOfUint neg un

/-- Go `strconv.Atoi(s)`: `ParseInt(s, 10, 0)` converted to `int` (the fast path for short
inputs returns the same pairs). -/
def Atoi (s : List Char) : Int × Option NumError :=
  ParseInt s

/-! ## `handler.go` -/

/-- The delimiter `"__"` of a size directive. -/
def delim : List Char := ['_', '_']

/-- The size directive `Size` of a request. -/
structure Size where
  Width : Int
  Height : Int
  Option : Int
  deriving DecidableEq, Repr

/-- The `for ind, folder := range folders` loop of `convertPath`: `n` is `len(folders)`,
`ind` the index of the first folder still to visit, `path` the slice built so far. -/
def convertPathLoop (lower : Char → Char) (n : Nat) :
    Nat → List (List Char) → List (List Char) → List (List Char)
  | _, [], path => path
  | ind, folder :: rest, path =>
    let trimFolder := Trim folder [' ']
    if trimFolder ≠ [] ∧ (ind : Int) ≠ (n : Int) - 1 then
      convertPathLoop lower n (ind + 1) rest (path ++ [ToLower lower trimFolder])
    else
      convertPathLoop lower n (ind + 1) rest path

/-- `ImgHandler.convertPath`: the pair `(name, path)`; `none` stands for the panic of
`folders[len(folders)-1]` on an index out of range. -/
def convertPath (lower : Char → Char) (urlPath : List Char) :
    Option (List Char × List Char) :=
  let folders := Split urlPath '/'
  let path := convertPathLoop lower folders.length 0 folders []
  if (folders.length : Int) - 1 < 0 then none
  else
    match folders[((folders.length : Int) - 1).toNat]? with
    | none => none
    | some last => some (ToLower lower last, Join path [','])

/-- `ImgHandler.getNameAndSize`: the pair `(name, size)`, `size = none` for the nil
pointer; the outer `none` stands for a run-time panic, of the slice
`basename[delimiterPos+2:]` or of an index into the pieces of the size text. -/
def getNameAndSize (lower : Char → Char) (reqName : List Char) :
    Option (List Char × Option Size) :=
  let delimiterPos := LastIndex reqName delim
  if delimiterPos > 0 then
    let ext := ToLower lower (Ext reqName)
    let basename := TrimSuffix reqName ext
    let name := ToLower lower (reqName.take delimiterPos.toNat ++ ext)
    if basename.length < delimiterPos.toNat + 2 then none
    else
      let reqSize := basename.drop (delimiterPos.toNat + 2)
      if Contains reqSize 'x' then
        match (Split reqSize 'x')[0]?, (Split reqSize 'x')[1]? with
        | some reqWidth, some reqHeight =>
          some (name, some ⟨(Atoi reqWidth).1, (Atoi reqHeight).1, 0⟩)
        | _, _ => none
      else if Contains reqSize 'z' then
        match (Split reqSize 'z')[0]?, (Split reqSize 'z')[1]? with
        | some reqWidth, some reqHeight =>
          some (name, some ⟨(Atoi reqWidth).1, (Atoi reqHeight).1, 1⟩)
        | _, _ => none
      else some (name, none)
  else some (reqName, none)

/-- The size text `reqSize = basename[delimiterPos+2:]` of `getNameAndSize`, on its own;
`none` stands for the panic of a slice bound out of range. -/
def reqSizeOf (lower : Char → Char) (reqName : List Char) : Option (List Char) :=
  let delimiterPos := LastIndex reqName delim
  let ext := ToLower lower (Ext reqName)
  let basename := TrimSuffix reqName ext
  if basename.length < delimiterPos.toNat + 2 then none
  else some (basename.drop (delimiterPos.toNat + 2))

/-- The `switch` of `getNameAndSize` on the size text, on its own; the outer `none` stands
for the panic of an index out of range into the pieces. -/
def parseSize (reqSize : List Char) : Option (Option Size) :=
  if Contains reqSize 'x' then
    match (Split reqSize 'x')[0]?, (Split reqSize 'x')[1]? with
    | some reqWidth, some reqHeight =>
      some (some ⟨(Atoi reqWidth).1, (Atoi reqHeight).1, 0⟩)
    | _, _ => none
  else if Contains reqSize 'z' then
    match (Split reqSize 'z')[0]?, (Split reqSize 'z')[1]? with
    | some reqWidth, some reqHeight =>
      some (some ⟨(Atoi reqWidth).1, (Atoi reqHeight).1, 1⟩)
    | _, _ => none
  else some none

/-- The key `(name, path)` under which `handlePOST` stores the upload of `urlPath`; `none`
stands for a panic. -/
def handlePOSTKey (lower : Char → Char) (urlPath : List Char) :
    Option (List Char × List Char) :=
  convertPath lower urlPath

/-- The key `(name, path)` that `handleGET` passes to `Find` for `urlPath`: the inner
`none` is the early return on `favicon.ico`, before any lookup; the outer `none` stands
for a panic. -/
def handleGETKey (lower : Char → Char) (urlPath : List Char) :
    Option (Option (List Char × List Char)) :=
  match convertPath lower urlPath with
  | none => none
  | some (reqName, path) =>
    if reqName = "favicon.ico".toList then some none
    else
      match getNameAndSize lower reqName with
      | none => none
      | some (name, _) => some (some (name, path))

/-- What the proofs use of `unicode.ToLower`: lower-casing twice is lower-casing once, and
`_`, `.` and `/` are each the image of themselves only. -/
def LowerOK (lower : Char → Char) : Prop :=
  (∀ c, lower (lower c) = lower c) ∧ (∀ c, lower c = '_' ↔ c = '_') ∧
    (∀ c, lower c = '.' ↔ c = '.') ∧ (∀ c, lower c = '/' ↔ c = '/')

/-- The text between the last delimiter and the extension of `rawName`, as the
specification of the parser words it. -/
def textBetween (rawName : List Char) : List Char :=
  (rawName.take (rawName.length - (Ext rawName).length)).drop
    ((LastIndex rawName delim).toNat + 2)

/-- Unicode white space, the characters `unicode.IsSpace` accepts. -/
def isSpace (c : Char) : Bool :=
  (9 ≤ c.toNat ∧ c.toNat ≤ 13) ∨ c.toNat = 32 ∨ c.toNat = 0x85 ∨ c.toNat = 0xA0 ∨
    c.toNat = 0x1680 ∨ (0x2000 ≤ c.toNat ∧ c.toNat ≤ 0x200A) ∨ c.toNat = 0x2028 ∨
    c.toNat = 0x2029 ∨ c.toNat = 0x202F ∨ c.toNat = 0x205F ∨ c.toNat = 0x3000

/-- The resolution of a URL path as the specification words it: split on `/`; `path` is
the comma-join, in order, of the lower-cased segments other than the last one, after
trimming the characters `trimmed` from both ends of each and dropping those that are then
empty; `name` is the last segment, lower-cased. -/
def resolveSpec (trimmed : Char → Bool) (lower : Char → Char) (urlPath : List Char) :
    List Char × List Char :=
  let segments := Split urlPath '/'
  let kept := ((segments.dropLast.map (fun seg => TrimFunc seg trimmed)).filter
    (fun seg => decide (seg ≠ []))).map (ToLower lower)
  (ToLower lower (segments.getLastD []), Join kept [','])

/-- A decimal digit. -/
def isDigit (c : Char) : Prop := 48 ≤ c.toNat ∧ c.toNat ≤ 57

/-- A decimal numeral: one digit or more. -/
def isNumeral (s : List Char) : Prop := s ≠ [] ∧ ∀ c ∈ s, isDigit c

/-- The number a string of decimal digits denotes, on top of the digits `n` read before. -/
def decValFrom (s : List Char) (n : Nat) : Nat :=
  s.foldl (fun m c => m * 10 + (c.toNat - 48)) n

/-- The number a decimal numeral denotes. -/
def decVal (s : List Char) : Nat := decValFrom s 0

/-! ## `handlePOST`: the size of the stored image -/

/-- The size of the image `imaging.Resize(img, width, height, filter)` returns for a source
of `srcW` by `srcH` pixels, as the library `github.com/disintegration/imaging` computes it
before resampling (the filter has no part in it): the empty image for a negative argument,
for two zero arguments and for an empty source; else `width` by `height`, a zero argument
being replaced to preserve the aspect ratio.  `aspect d a b` stands for the `float64`
expression `int(math.Max(1.0, math.Floor(float64(d)*float64(a)/float64(b)+0.5)))`. -/
def resizeBounds (aspect : Int → Int → Int → Int) (srcW srcH width height : Int) :
    Int × Int :=
  if width < 0 ∨ height < 0 then (0, 0)
  else if width = 0 ∧ height = 0 then (0, 0)
  else if srcW ≤ 0 ∨ srcH ≤ 0 then (0, 0)
  else
    let dstW := if width = 0 then aspect height srcW srcH else width
    let dstH := if height = 0 then aspect dstW srcH srcW else height
    (dstW, dstH)

/-- The expression `aspect` stands for, in exact arithmetic: `d * a / b` rounded to the
nearest integer, at least 1. -/
def roundAspect (d a b : Int) : Int :=
  max 1 ((2 * d * a + b) / (2 * b))

/-- What the proofs use of the expression `aspect` stands for: scaling the length `a` by
`d / b` with `0 < d ≤ b` does not give more than `a`. -/
def AspectBound (aspect : Int → Int → Int → Int) : Prop :=
  ∀ d a b, 0 < d → d ≤ b → 0 < a → aspect d a b ≤ a

/-- The size contract of `imaging.Resize` for an image type `Img` with bounds `Dx`, `Dy`. -/
def ResizeContract {Img : Type} (aspect : Int → Int → Int → Int) (Dx Dy : Img → Int)
    (Resize : Img → Int → Int → Img) : Prop :=
  ∀ img width height,
    (Dx (Resize img width height), Dy (Resize img width height)) =
      resizeBounds aspect (Dx img) (Dy img) width height

/-- The test of `handlePOST` on the decoded upload `origin` against the configured
`StoredSize` (`maxW`, `maxH`). -/
@[reducible]
def exceedsStoredSize {Img : Type} (Dx Dy : Img → Int) (maxW maxH : Int) (origin : Img) :
    Prop :=
  (maxW > 0 ∧ Dx origin > maxW) ∨ (maxH > 0 ∧ Dy origin > maxH)

/-- The one case in which the stored image is larger than the upload on an axis: both
maxima are positive, one is exceeded, and the other axis of the (non-empty) upload is
below its maximum. -/
@[reducible]
def stretchedAxis {Img : Type} (Dx Dy : Img → Int) (maxW maxH : Int) (origin : Img) :
    Prop :=
  0 < maxW ∧ 0 < maxH ∧
    ((Dx origin > maxW ∧ 0 < Dy origin ∧ Dy origin < maxH) ∨
      (Dy origin > maxH ∧ 0 < Dx origin ∧ Dx origin < maxW))

/-- The image `handlePOST` encodes and stores. -/
def storedImage {Img : Type} (Resize : Img → Int → Int → Img) (Dx Dy : Img → Int)
    (maxW maxH : Int) (origin : Img) : Img :=
  if exceedsStoredSize Dx Dy maxW maxH origin then Resize origin maxW maxH else origin

/-- Images reduced to their size, with the resizing that meets the size contract. -/
def sizeResize (img : Int × Int) (width height : Int) : Int × Int :=
  resizeBounds roundAspect img.1 img.2 width height

/-! ## Facts about the library functions -/

theorem Split_ne_nil (s : List Char) (sep : Char) : Split s sep ≠ [] := by
  induction s with
  | nil => simp [Split]
  | cons c cs ih =>
    unfold Split
    split
    · simp
    · split <;> simp

theorem Split_of_not_mem (s : List Char) (sep : Char) (h : sep ∉ s) : Split s sep = [s] := by
  induction s with
  | nil => simp [Split]
  | cons c cs ih =>
    have hc : c ≠ sep := fun e => h (by simp [e])
    have hcs : sep ∉ cs := fun e => h (by simp [e])
    simp [Split, hc, ih hcs]

theorem Split_append_sep (a b : List Char) (sep : Char) :
    Split (a ++ sep :: b) sep = Split a sep ++ Split b sep := by
  induction a with
  | nil => simp [Split]
  | cons c cs ih =>
    by_cases hc : c = sep
    · simp [Split, hc, ih]
    · rcases hs : Split cs sep with _ | ⟨piece, pieces⟩
      · exact absurd hs (Split_ne_nil cs sep)
      · simp [Split, hc, ih, hs]

theorem Split_prefix_sep (a b : List Char) (sep : Char) (h : sep ∉ a) :
    Split (a ++ sep :: b) sep = a :: Split b sep := by
  rw [Split_append_sep, Split_of_not_mem a sep h]
  rfl

theorem Split_two_of_mem (s : List Char) (sep : Char) (h : sep ∈ s) :
    ∃ w t rest, Split s sep = w :: t :: rest := by
  obtain ⟨a, b, rfl⟩ := List.append_of_mem h
  rw [Split_append_sep]
  rcases ha : Split a sep with _ | ⟨w, ws⟩
  · exact absurd ha (Split_ne_nil a sep)
  · rcases hb : Split b sep with _ | ⟨t, ts⟩
    · exact absurd hb (Split_ne_nil b sep)
    · rcases ws with _ | ⟨w2, ws2⟩
      · exact ⟨w, t, ts, by simp⟩
      · exact ⟨w, w2, ws2 ++ t :: ts, by simp⟩

theorem LastIndex_ge (s substr : List Char) : -1 ≤ LastIndex s substr := by
  induction s with
  | nil => unfold LastIndex; split <;> omega
  | cons c cs ih => unfold LastIndex; split_ifs <;> omega

theorem LastIndex_eq_neg_one_iff (s substr : List Char) (hsub : substr ≠ []) :
    LastIndex s substr = -1 ↔ ¬ substr <:+: s := by
  induction s with
  | nil => simp [LastIndex, hsub]
  | cons c cs ih =>
    have hge := LastIndex_ge cs substr
    rw [List.infix_cons_iff]
    unfold LastIndex
    by_cases h0 : 0 ≤ LastIndex cs substr
    · have hin : substr <:+: cs := by
        by_contra hn
        have := ih.mpr hn
        omega
      simp only [h0, if_true]
      constructor
      · intro h; omega
      · intro h; exact absurd (Or.inr hin) h
    · have hneg : LastIndex cs substr = -1 := by omega
      have hnin := ih.mp hneg
      simp only [h0, if_false]
      by_cases hp : substr.isPrefixOf (c :: cs) = true
      · simp only [hp, if_true]
        constructor
        · intro h; omega
        · intro h; exact absurd (Or.inl (List.isPrefixOf_iff_prefix.mp hp)) h
      · simp only [hp]
        constructor
        · intro _ hor
          rcases hor with hpre | hinf
          · exact hp (List.isPrefixOf_iff_prefix.mpr hpre)
          · exact hnin hinf
        · intro _; rfl

theorem LastIndex_append_of_nonneg (a b substr : List Char) (h : 0 ≤ LastIndex b substr) :
    LastIndex (a ++ b) substr = a.length + LastIndex b substr := by
  induction a with
  | nil => simp
  | cons c cs ih =>
    have h1 : 0 ≤ LastIndex (cs ++ b) substr := by rw [ih]; omega
    simp only [List.cons_append, List.length_cons]
    rw [LastIndex]
    simp only [h1, if_true, ih]
    push_cast
    omega

theorem LastIndex_eq_zero (s substr : List Char) (hsub : substr ≠ [])
    (hpre : substr <+: s) (htail : ¬ substr <:+: s.tail) : LastIndex s substr = 0 := by
  cases s with
  | nil => simp at hpre; exact absurd hpre hsub
  | cons c cs =>
    have hneg : LastIndex cs substr = -1 := (LastIndex_eq_neg_one_iff cs substr hsub).mpr htail
    rw [LastIndex]
    simp [hneg, List.isPrefixOf_iff_prefix.mpr hpre]

/-- The last `"__"` of `p ++ "__" ++ t` starts right after `p` when none starts later. -/
theorem LastIndex_delim (p t : List Char) (h : ¬ delim <:+: '_' :: t) :
    LastIndex (p ++ delim ++ t) delim = p.length := by
  have h0 : LastIndex (delim ++ t) delim = 0 := by
    apply LastIndex_eq_zero
    · simp [delim]
    · simp [delim]
    · simpa [delim] using h
  rw [List.append_assoc, LastIndex_append_of_nonneg _ _ _ (by omega), h0]
  simp

theorem extLoop_dot (a b acc : List Char) (hdot : '.' ∉ a) (hsl : '/' ∉ a) :
    extLoop (a ++ '.' :: b) acc = '.' :: (a.reverse ++ acc) := by
  induction a generalizing acc with
  | nil => simp [extLoop]
  | cons c cs ih =>
    have h1 : c ≠ '.' := fun e => hdot (by simp [e])
    have h2 : c ≠ '/' := fun e => hsl (by simp [e])
    have h3 : '.' ∉ cs := fun e => hdot (by simp [e])
    have h4 : '/' ∉ cs := fun e => hsl (by simp [e])
    simp [extLoop, h1, h2, ih (c :: acc) h3 h4]

/-- The extension of `a ++ "." ++ r` is `"." ++ r` when `r` has neither a dot nor a
separator. -/
theorem Ext_append_dot (a r : List Char) (hdot : '.' ∉ r) (hsl : '/' ∉ r) :
    Ext (a ++ '.' :: r) = '.' :: r := by
  unfold Ext
  rw [List.reverse_append, List.reverse_cons, List.append_assoc]
  have := extLoop_dot r.reverse a.reverse [] (by simpa using hdot) (by simpa using hsl)
  simpa using this

theorem extLoop_suffix (rev acc : List Char) :
    extLoop rev acc = [] ∨ ∃ pre, rev.reverse ++ acc = pre ++ extLoop rev acc := by
  induction rev generalizing acc with
  | nil => left; rfl
  | cons c cs ih =>
    unfold extLoop
    split_ifs with h1 h2
    · left; rfl
    · right; exact ⟨cs.reverse, by simp⟩
    · rcases ih (c :: acc) with h | ⟨pre, h⟩
      · left; exact h
      · right; exact ⟨pre, by simpa using h⟩

/-- The extension is a suffix of the path. -/
theorem Ext_suffix (path : List Char) : Ext path <:+ path := by
  unfold Ext
  rcases extLoop_suffix path.reverse [] with h | ⟨pre, h⟩
  · rw [h]; exact List.nil_suffix
  · exact ⟨pre, by simpa using h.symm⟩

theorem TrimSuffix_of_suffix (s suffix : List Char) (h : suffix <:+ s) :
    TrimSuffix s suffix = s.take (s.length - suffix.length) := by
  unfold TrimSuffix
  rw [if_pos (List.isSuffixOf_iff_suffix.mpr h)]

theorem TrimSuffix_append (a suffix : List Char) : TrimSuffix (a ++ suffix) suffix = a := by
  rw [TrimSuffix_of_suffix _ _ (List.suffix_append a suffix)]
  simp

theorem ToLower_append (lower : Char → Char) (a b : List Char) :
    ToLower lower (a ++ b) = ToLower lower a ++ ToLower lower b := by
  simp [ToLower]

theorem ToLower_fixed_append (lower : Char → Char) (a b : List Char)
    (h : ToLower lower (a ++ b) = a ++ b) :
    ToLower lower a = a ∧ ToLower lower b = b := by
  rw [ToLower_append] at h
  exact List.append_inj h (by simp [ToLower])

theorem decValFrom_ge (s : List Char) (n : Nat) : n ≤ decValFrom s n := by
  induction s generalizing n with
  | nil => simp [decValFrom]
  | cons c cs ih =>
    have := ih (n * 10 + (c.toNat - 48))
    simp only [decValFrom, List.foldl_cons] at this ⊢
    omega

theorem parseUintLoop_digits (s : List Char) (n : Nat) (hd : ∀ c ∈ s, isDigit c)
    (hfit : decValFrom s n < 2 ^ 64) : parseUintLoop s n = (decValFrom s n, none) := by
  induction s generalizing n with
  | nil => simp [parseUintLoop, decValFrom]
  | cons c cs ih =>
    have hc : isDigit c := hd c (by simp)
    have hcs : ∀ d ∈ cs, isDigit d := fun d hdm => hd d (by simp [hdm])
    have hstep : decValFrom (c :: cs) n = decValFrom cs (n * 10 + (c.toNat - 48)) := by
      simp [decValFrom]
    rw [hstep] at hfit ⊢
    have hge := decValFrom_ge cs (n * 10 + (c.toNat - 48))
    have hlt : n * 10 + (c.toNat - 48) < 2 ^ 64 := by omega
    unfold isDigit at hc
    have hm1 : n * 10 % 2 ^ 64 = n * 10 := Nat.mod_eq_of_lt (by omega)
    have hm2 : (n * 10 + (c.toNat - 48)) % 2 ^ 64 = n * 10 + (c.toNat - 48) :=
      Nat.mod_eq_of_lt hlt
    rw [parseUintLoop]
    simp only [hm1, hm2]
    rw [if_pos hc, if_neg (by omega), if_neg (by omega)]
    exact ih _ hcs hfit

theorem ParseUint_numeral (s : List Char) (hs : isNumeral s) (hfit : decVal s < 2 ^ 64) :
    ParseUint s = (decVal s, none) := by
  unfold ParseUint
  rw [if_neg hs.1]
  exact parseUintLoop_digits s 0 hs.2 hfit

/-- On a decimal numeral that fits an `int`, `Atoi` returns its value and no error. -/
theorem Atoi_numeral (s : List Char) (hs : isNumeral s) (hfit : decVal s < 2 ^ 63) :
    Atoi s = ((decVal s : Int), none) := by
  obtain ⟨hne, hd⟩ := hs
  cases s with
  | nil => exact absurd rfl hne
  | cons c cs =>
    have hc : isDigit c := hd c (by simp)
    have h1 : c ≠ '+' := by
      rintro rfl
      exact absurd hc.1 (by decide)
    have h2 : c ≠ '-' := by
      rintro rfl
      exact absurd hc.1 (by decide)
    have hu := ParseUint_numeral (c :: cs) ⟨hne, hd⟩ (by omega)
    have hs : signedOfUint false (decVal (c :: cs)) = ((decVal (c :: cs) : Int), none) := by
      unfold signedOfUint
      simp only [intSize]
      rw [if_neg (by omega), if_neg (by simp)]
      simp
    simp only [Atoi, ParseInt, h1, h2, or_self, if_false, hu, decide_False]
    exact hs

theorem signedOfUint_cases (neg : Bool) (un : Nat) :
    ((signedOfUint neg un).2 = some NumError.ErrRange ∧
      (((signedOfUint neg un).1 = 2 ^ 63 - 1 ∧ neg = false) ∨
        ((signedOfUint neg un).1 = -2 ^ 63 ∧ neg = true))) ∨
    ((signedOfUint neg un).2 = none ∧ -2 ^ 63 ≤ (signedOfUint neg un).1 ∧
      (signedOfUint neg un).1 ≤ 2 ^ 63 - 1 ∧ (neg = false → 0 ≤ (signedOfUint neg un).1)) := by
  unfold signedOfUint
  simp only [intSize]
  split_ifs with h1 h2 h3
  · left; exact ⟨rfl, Or.inl ⟨by norm_num, h1.1⟩⟩
  · left; exact ⟨rfl, Or.inr ⟨by norm_num, h2.1⟩⟩
  · right
    have hle : un ≤ 2 ^ 63 := by
      by_contra hc
      exact h2 ⟨h3, by omega⟩
    refine ⟨rfl, ?_, ?_, ?_⟩
    · show -2 ^ 63 ≤ -(un : Int)
      omega
    · show -(un : Int) ≤ 2 ^ 63 - 1
      omega
    · intro hf; rw [h3] at hf; cases hf
  · right
    have hneg : neg = false := by simpa using h3
    have hlt : un < 2 ^ 63 := by
      by_contra hc
      exact h1 ⟨hneg, by omega⟩
    refine ⟨rfl, ?_, ?_, ?_⟩
    · show -2 ^ 63 ≤ (un : Int)
      omega
    · show (un : Int) ≤ 2 ^ 63 - 1
      omega
    · intro _
      show 0 ≤ (un : Int)
      omega

/-- What `ParseInt` can return: `0` with a syntax error, a bound of `int` with a range
error, or a value of the `int` range without error; the value is negative only for a
string that starts with `-`. -/
theorem ParseInt_cases (s : List Char) :
    ((ParseInt s).2 = some NumError.ErrSyntax ∧ (ParseInt s).1 = 0) ∨
    ((ParseInt s).2 = some NumError.ErrRange ∧
      (((ParseInt s).1 = 2 ^ 63 - 1 ∧ s.head? ≠ some '-') ∨
        ((ParseInt s).1 = -2 ^ 63 ∧ s.head? = some '-'))) ∨
    ((ParseInt s).2 = none ∧ -2 ^ 63 ≤ (ParseInt s).1 ∧ (ParseInt s).1 ≤ 2 ^ 63 - 1 ∧
      (s.head? ≠ some '-' → 0 ≤ (ParseInt s).1)) := by
  cases s with
  | nil => left; simp [ParseInt]
  | cons c cs =>
    have key : ∀ un : Nat,
        ((signedOfUint (decide (c = '-')) un).2 = some NumError.ErrRange ∧
          (((signedOfUint (decide (c = '-')) un).1 = 2 ^ 63 - 1 ∧
              (c :: cs).head? ≠ some '-') ∨
            ((signedOfUint (decide (c = '-')) un).1 = -2 ^ 63 ∧
              (c :: cs).head? = some '-'))) ∨
        ((signedOfUint (decide (c = '-')) un).2 = none ∧
          -2 ^ 63 ≤ (signedOfUint (decide (c = '-')) un).1 ∧
          (signedOfUint (decide (c = '-')) un).1 ≤ 2 ^ 63 - 1 ∧
          ((c :: cs).head? ≠ some '-' → 0 ≤ (signedOfUint (decide (c = '-')) un).1)) := by
      intro un
      rcases signedOfUint_cases (decide (c = '-')) un with ⟨he, hv⟩ | ⟨he, hlo, hhi, hnn⟩
      · left
        refine ⟨he, ?_⟩
        rcases hv with ⟨hv, hn⟩ | ⟨hv, hn⟩
        · left; exact ⟨hv, by simpa using hn⟩
        · right; exact ⟨hv, by simpa using hn⟩
      · right
        exact ⟨he, hlo, hhi, fun hh => hnn (by simpa using hh)⟩
    simp only [ParseInt]
    rcases hu : ParseUint (if c = '+' ∨ c = '-' then cs else c :: cs) with ⟨un, _ | e⟩
    · right; exact key un
    · cases e with
      | ErrSyntax => left; exact ⟨rfl, rfl⟩
      | ErrRange => right; exact key un

/-! ## Facts about `getNameAndSize` -/

theorem parseSize_x (reqSize w h : List Char) (rest : List (List Char))
    (hx : 'x' ∈ reqSize) (hs : Split reqSize 'x' = w :: h :: rest) :
    parseSize reqSize = some (some ⟨(Atoi w).1, (Atoi h).1, 0⟩) := by
  simp [parseSize, Contains, hx, hs]

theorem parseSize_z (reqSize w h : List Char) (rest : List (List Char))
    (hx : 'x' ∉ reqSize) (hz : 'z' ∈ reqSize) (hs : Split reqSize 'z' = w :: h :: rest) :
    parseSize reqSize = some (some ⟨(Atoi w).1, (Atoi h).1, 1⟩) := by
  simp [parseSize, Contains, hx, hz, hs]

theorem parseSize_neither (reqSize : List Char) (hx : 'x' ∉ reqSize) (hz : 'z' ∉ reqSize) :
    parseSize reqSize = some none := by
  simp [parseSize, Contains, hx, hz]

/-- The outcomes of the `switch`: it never indexes out of range, and a directive comes
from the first two pieces of the size text split on `x`, else on `z`. -/
theorem parseSize_cases (reqSize : List Char) :
    (parseSize reqSize = some none ∧ 'x' ∉ reqSize ∧ 'z' ∉ reqSize) ∨
    ∃ sep opt w h rest, ((sep = 'x' ∧ opt = 0) ∨ (sep = 'z' ∧ opt = 1 ∧ 'x' ∉ reqSize)) ∧
      sep ∈ reqSize ∧ Split reqSize sep = w :: h :: rest ∧
      parseSize reqSize = some (some ⟨(Atoi w).1, (Atoi h).1, opt⟩) := by
  by_cases hx : 'x' ∈ reqSize
  · right
    obtain ⟨w, h, rest, hs⟩ := Split_two_of_mem reqSize 'x' hx
    exact ⟨'x', 0, w, h, rest, Or.inl ⟨rfl, rfl⟩, hx, hs, parseSize_x _ _ _ _ hx hs⟩
  · by_cases hz : 'z' ∈ reqSize
    · right
      obtain ⟨w, h, rest, hs⟩ := Split_two_of_mem reqSize 'z' hz
      exact ⟨'z', 1, w, h, rest, Or.inr ⟨rfl, rfl, hx⟩, hz, hs, parseSize_z _ _ _ _ hx hz hs⟩
    · left
      exact ⟨parseSize_neither _ hx hz, hx, hz⟩

/-- The function `getNameAndSize` is the composition of its two parts. -/
theorem getNameAndSize_eq (lower : Char → Char) (reqName : List Char) :
    getNameAndSize lower reqName =
      if LastIndex reqName delim > 0 then
        match reqSizeOf lower reqName with
        | none => none
        | some reqSize =>
          match parseSize reqSize with
          | none => none
          | some size =>
            some (ToLower lower (reqName.take (LastIndex reqName delim).toNat ++
              ToLower lower (Ext reqName)), size)
      else some (reqName, none) := by
  unfold getNameAndSize reqSizeOf parseSize
  simp only []
  split_ifs <;> first | rfl | (split <;> simp_all)

theorem getNameAndSize_of_pos (lower : Char → Char) (reqName reqSize : List Char)
    (size : Option Size) (hpos : 0 < LastIndex reqName delim)
    (hreq : reqSizeOf lower reqName = some reqSize) (hps : parseSize reqSize = some size) :
    getNameAndSize lower reqName =
      some (ToLower lower (reqName.take (LastIndex reqName delim).toNat ++
        ToLower lower (Ext reqName)), size) := by
  simp [getNameAndSize_eq, hpos, hreq, hps]

theorem getNameAndSize_of_nonpos (lower : Char → Char) (reqName : List Char)
    (hpos : LastIndex reqName delim ≤ 0) :
    getNameAndSize lower reqName = some (reqName, none) := by
  have : ¬ LastIndex reqName delim > 0 := by omega
  simp [getNameAndSize_eq, this]

/-- The one panic of `getNameAndSize`: the slice `basename[delimiterPos+2:]`, when the
trimmed `basename` ends before the delimiter does. -/
theorem getNameAndSize_eq_none_iff (lower : Char → Char) (reqName : List Char) :
    getNameAndSize lower reqName = none ↔
      0 < LastIndex reqName delim ∧
        (TrimSuffix reqName (ToLower lower (Ext reqName))).length <
          (LastIndex reqName delim).toNat + 2 := by
  by_cases hpos : 0 < LastIndex reqName delim
  · by_cases hlen : (TrimSuffix reqName (ToLower lower (Ext reqName))).length <
        (LastIndex reqName delim).toNat + 2
    · have hreq : reqSizeOf lower reqName = none := by
        unfold reqSizeOf
        simp only [hlen, if_true]
      simp [getNameAndSize_eq, hpos, hreq, hlen]
    · have hreq : reqSizeOf lower reqName = some ((TrimSuffix reqName
          (ToLower lower (Ext reqName))).drop ((LastIndex reqName delim).toNat + 2)) := by
        unfold reqSizeOf
        simp only [hlen, if_false]
      obtain ⟨size, hps⟩ : ∃ size, parseSize ((TrimSuffix reqName
          (ToLower lower (Ext reqName))).drop ((LastIndex reqName delim).toNat + 2)) =
            some size := by
        rcases parseSize_cases ((TrimSuffix reqName (ToLower lower (Ext reqName))).drop
          ((LastIndex reqName delim).toNat + 2)) with ⟨h, _⟩ | ⟨_, _, _, _, _, _, _, _, h⟩
        · exact ⟨_, h⟩
        · exact ⟨_, h⟩
      rw [getNameAndSize_of_pos lower _ _ _ hpos hreq hps]
      simp [hlen]
  · rw [getNameAndSize_of_nonpos lower reqName (by omega)]
    simp [hpos]

theorem not_delim_infix_append (a b : List Char) (ha : '_' ∉ a) (hb : ¬ delim <:+: b) :
    ¬ delim <:+: a ++ b := by
  induction a with
  | nil => simpa using hb
  | cons c cs ih =>
    have hc : c ≠ '_' := fun e => ha (by simp [e])
    have hcs : '_' ∉ cs := fun e => ha (by simp [e])
    rw [List.cons_append, List.infix_cons_iff]
    rintro (hpre | hinf)
    · rw [delim, List.cons_prefix_cons] at hpre
      exact hc hpre.1.symm
    · exact ih hcs hinf

theorem not_delim_infix_underscore_cons (t : List Char) (ht : t.head? ≠ some '_')
    (h : ¬ delim <:+: t) : ¬ delim <:+: '_' :: t := by
  rw [List.infix_cons_iff]
  rintro (hpre | hinf)
  · rw [delim, List.cons_prefix_cons] at hpre
    cases t with
    | nil => simp at hpre
    | cons c cs =>
      rw [List.cons_prefix_cons] at hpre
      exact ht (by simp [← hpre.2.1])
  · exact h hinf

theorem isDigit_ne (c d : Char) (hc : isDigit c) (hd : d.toNat < 48 ∨ 57 < d.toNat) :
    c ≠ d := by
  rintro rfl
  unfold isDigit at hc
  omega

theorem not_mem_of_digits (s : List Char) (d : Char) (hs : ∀ c ∈ s, isDigit c)
    (hd : d.toNat < 48 ∨ 57 < d.toNat) : d ∉ s :=
  fun hmem => isDigit_ne d d (hs d hmem) hd rfl

/-- The shape `p ++ "__" ++ sizeText ++ "." ++ r` of a leaf name with a directive: where
the delimiter is, what the extension is and what size text the parser reads, when the
extension is already lower-case. -/
theorem shape_facts (lower : Char → Char) (p t r : List Char)
    (htu : '_' ∉ t) (hr : '.' ∉ r) (hsl : '/' ∉ r)
    (he : ¬ delim <:+: '.' :: r) (hlow : ToLower lower ('.' :: r) = '.' :: r) :
    LastIndex (p ++ delim ++ (t ++ '.' :: r)) delim = p.length ∧
    Ext (p ++ delim ++ (t ++ '.' :: r)) = '.' :: r ∧
    reqSizeOf lower (p ++ delim ++ (t ++ '.' :: r)) = some t := by
  have hLI : LastIndex (p ++ delim ++ (t ++ '.' :: r)) delim = p.length := by
    apply LastIndex_delim
    apply not_delim_infix_underscore_cons
    · cases t with
      | nil => simp
      | cons c cs =>
        have hc : c ≠ '_' := fun e => htu (by simp [e])
        simpa using hc
    · exact not_delim_infix_append t _ htu he
  have hExt : Ext (p ++ delim ++ (t ++ '.' :: r)) = '.' :: r := by
    have := Ext_append_dot (p ++ delim ++ t) r hr hsl
    simpa [List.append_assoc] using this
  refine ⟨hLI, hExt, ?_⟩
  have hbase : p ++ delim ++ (t ++ '.' :: r) = (p ++ delim ++ t) ++ '.' :: r := by
    simp [List.append_assoc]
  unfold reqSizeOf
  simp only [hLI, hExt, hlow]
  rw [hbase, TrimSuffix_append]
  have hlen : ¬ (p ++ delim ++ t).length < ((p.length : Int)).toNat + 2 := by
    simp [delim]
  rw [if_neg hlen]
  simp [delim]

/-- A returned directive comes from the size text: its fields are what `Atoi` returns on
the first two pieces of the text split on `x` (option 0), else on `z` (option 1). -/
theorem getNameAndSize_directive_inv (lower : Char → Char) (rawName name : List Char)
    (d : Size) (hres : getNameAndSize lower rawName = some (name, some d)) :
    0 < LastIndex rawName delim ∧
    ∃ reqSize sep w h rest, reqSizeOf lower rawName = some reqSize ∧
      ((sep = 'x' ∧ d.Option = 0) ∨ (sep = 'z' ∧ d.Option = 1)) ∧
      Split reqSize sep = w :: h :: rest ∧
      d.Width = (Atoi w).1 ∧ d.Height = (Atoi h).1 := by
  by_cases hpos : 0 < LastIndex rawName delim
  · refine ⟨hpos, ?_⟩
    rcases hreq : reqSizeOf lower rawName with _ | reqSize
    · simp [getNameAndSize_eq, hpos, hreq] at hres
    · rcases parseSize_cases reqSize with ⟨hps, _, _⟩ | ⟨sep, opt, w, h, rest, hso, _, hsp, hps⟩
      · rw [getNameAndSize_of_pos lower _ _ _ hpos hreq hps] at hres
        simp at hres
      · rw [getNameAndSize_of_pos lower _ _ _ hpos hreq hps] at hres
        have hd : d = ⟨(Atoi w).1, (Atoi h).1, opt⟩ := by
          simp only [Option.some.injEq, Prod.mk.injEq] at hres
          exact hres.2.symm
        refine ⟨reqSize, sep, w, h, rest, rfl, ?_, hsp, by rw [hd], by rw [hd]⟩
        rcases hso with ⟨h1, h2⟩ | ⟨h1, h2, _⟩
        · left; exact ⟨h1, by rw [hd]; exact h2⟩
        · right; exact ⟨h1, by rw [hd]; exact h2⟩
  · rw [getNameAndSize_of_nonpos lower rawName (by omega)] at hres
    simp at hres

/-! ## Facts about `convertPath` -/

theorem Trim_space (s : List Char) : Trim s [' '] = TrimFunc s (fun c => c == ' ') := by
  unfold Trim
  congr 1
  funext c
  cases h : (c == ' ') <;> simp [List.contains, List.elem, h]

theorem convertPathLoop_eq (lower : Char → Char) (n : Nat) (rest : List (List Char)) :
    ∀ (ind : Nat) (path : List (List Char)), ind + rest.length = n →
      convertPathLoop lower n ind rest path =
        path ++ ((rest.dropLast.map (fun seg => Trim seg [' '])).filter
          (fun seg => decide (seg ≠ []))).map (ToLower lower) := by
  induction rest with
  | nil => intro ind path _; simp [convertPathLoop]
  | cons x xs ih =>
    intro ind path hlen
    rw [convertPathLoop]
    cases xs with
    | nil =>
      have hlast : ¬ (Trim x [' '] ≠ [] ∧ (ind : Int) ≠ (n : Int) - 1) := by
        simp only [List.length_cons, List.length_nil] at hlen
        intro h
        apply h.2
        omega
      simp only [hlast, if_false]
      simp [convertPathLoop]
    | cons y ys =>
      have hnot : (ind : Int) ≠ (n : Int) - 1 := by
        simp only [List.length_cons] at hlen
        omega
      have hlen2 : ind + 1 + (y :: ys).length = n := by
        simp only [List.length_cons] at hlen ⊢
        omega
      by_cases ht : Trim x [' '] = []
      · have hc : ¬ (Trim x [' '] ≠ [] ∧ (ind : Int) ≠ (n : Int) - 1) := fun h => h.1 ht
        simp only [hc, if_false]
        rw [ih (ind + 1) path hlen2]
        simp [ht]
      · have hc : Trim x [' '] ≠ [] ∧ (ind : Int) ≠ (n : Int) - 1 := ⟨ht, hnot⟩
        simp only [if_pos hc]
        rw [ih (ind + 1) _ hlen2]
        simp [ht]

/-- Whatever the URL path, `convertPath` returns, and what it returns is the resolution of
the specification with the space as the only trimmed character. -/
theorem convertPath_eq (lower : Char → Char) (urlPath : List Char) :
    convertPath lower urlPath = some (resolveSpec (fun c => c == ' ') lower urlPath) := by
  unfold convertPath resolveSpec
  have hne := Split_ne_nil urlPath '/'
  have hlen : 0 < (Split urlPath '/').length := List.length_pos.mpr hne
  have h1 : ¬ ((Split urlPath '/').length : Int) - 1 < 0 := by omega
  have h2 : (((Split urlPath '/').length : Int) - 1).toNat = (Split urlPath '/').length - 1 := by
    omega
  simp only [h1, if_false, h2]
  rw [← List.getLast?_eq_getElem?, convertPathLoop_eq lower _ _ 0 [] (by simp)]
  rcases hl : (Split urlPath '/').getLast? with _ | last
  · exact absurd (List.getLast?_eq_none_iff.mp hl) hne
  · simp [hl, Trim_space]

theorem asciiLower_of_upper (c : Char) (h : 65 ≤ c.toNat ∧ c.toNat ≤ 90) :
    asciiLower c = Char.ofNat (c.toNat + 32) := by
  simp [asciiLower, h]

theorem asciiLower_of_not_upper (c : Char) (h : ¬ (65 ≤ c.toNat ∧ c.toNat ≤ 90)) :
    asciiLower c = c := by
  simp [asciiLower, h]

theorem asciiLower_upper_facts (k : Nat) (h1 : 65 ≤ k) (h2 : k ≤ 90) :
    asciiLower (Char.ofNat (k + 32)) = Char.ofNat (k + 32) ∧ Char.ofNat (k + 32) ≠ '_' ∧
      Char.ofNat (k + 32) ≠ '.' ∧ Char.ofNat (k + 32) ≠ '/' ∧ Char.ofNat k ≠ '_' ∧
      Char.ofNat k ≠ '.' ∧ Char.ofNat k ≠ '/' := by
  interval_cases k <;> decide

theorem asciiLower_ok : LowerOK asciiLower := by
  have key : ∀ c : Char, asciiLower (asciiLower c) = asciiLower c ∧
      ∀ d : Char, d = '_' ∨ d = '.' ∨ d = '/' → (asciiLower c = d ↔ c = d) := by
    intro c
    by_cases h : 65 ≤ c.toNat ∧ c.toNat ≤ 90
    · have hf := asciiLower_upper_facts c.toNat h.1 h.2
      rw [Char.ofNat_toNat] at hf
      rw [asciiLower_of_upper c h]
      refine ⟨hf.1, ?_⟩
      rintro d (rfl | rfl | rfl)
      · exact ⟨fun e => absurd e hf.2.1, fun e => absurd e hf.2.2.2.2.1⟩
      · exact ⟨fun e => absurd e hf.2.2.1, fun e => absurd e hf.2.2.2.2.2.1⟩
      · exact ⟨fun e => absurd e hf.2.2.2.1, fun e => absurd e hf.2.2.2.2.2.2⟩
    · rw [asciiLower_of_not_upper c h]
      exact ⟨asciiLower_of_not_upper c h, fun _ _ => Iff.rfl⟩
  exact ⟨fun c => (key c).1, fun c => (key c).2 _ (Or.inl rfl),
    fun c => (key c).2 _ (Or.inr (Or.inl rfl)), fun c => (key c).2 _ (Or.inr (Or.inr rfl))⟩

/-- The folder key of a URL path whose folder part is `f`. -/
theorem convertPath_leaf (lower : Char → Char) (f leaf : List Char) (hleaf : '/' ∉ leaf) :
    convertPath lower (f ++ '/' :: leaf) =
      some (ToLower lower leaf, (resolveSpec (fun c => c == ' ') lower (f ++ ['/'])).2) := by
  rw [convertPath_eq]
  have h1 : Split (f ++ '/' :: leaf) '/' = Split f '/' ++ [leaf] := by
    rw [Split_append_sep, Split_of_not_mem leaf '/' hleaf]
  have h2 : Split (f ++ ['/']) '/' = Split f '/' ++ [[]] := by
    rw [Split_append_sep]
    rfl
  simp [resolveSpec, h1, h2]

theorem mem_ToLower_reflect (lower : Char → Char) (d : Char)
    (hd : ∀ c, lower c = d ↔ c = d) (t : List Char) (h : d ∈ ToLower lower t) : d ∈ t := by
  simp only [ToLower, List.mem_map] at h
  obtain ⟨c, hc, hcd⟩ := h
  rw [(hd c).mp hcd] at hc
  exact hc

theorem delim_infix_ToLower_reflect (lower : Char → Char)
    (hu : ∀ c, lower c = '_' ↔ c = '_') (t : List Char)
    (h : delim <:+: ToLower lower t) : delim <:+: t := by
  induction t with
  | nil => simpa [ToLower] using h
  | cons c cs ih =>
    simp only [ToLower, List.map_cons] at h
    rw [List.infix_cons_iff] at h ⊢
    rcases h with hpre | hinf
    · left
      cases cs with
      | nil => simp [delim] at hpre
      | cons c2 cs2 =>
        simp only [delim, List.map_cons, List.cons_prefix_cons] at hpre
        have e1 : c = '_' := (hu c).mp hpre.1.symm
        have e2 : c2 = '_' := (hu c2).mp hpre.2.1.symm
        simp [delim, e1, e2]
    · right
      exact ih hinf

/-! ## Facts about the size of a resized image -/

theorem roundAspect_bound : AspectBound roundAspect := by
  intro d a b hd hdb ha
  unfold roundAspect
  have hb : 0 < b := lt_of_lt_of_le hd hdb
  have hmul : d * a ≤ b * a := mul_le_mul_of_nonneg_right hdb (le_of_lt ha)
  have hlt : (2 * d * a + b) / (2 * b) < a + 1 := by
    apply Int.ediv_lt_of_lt_mul (by omega)
    have e1 : 2 * d * a = 2 * (d * a) := by ring
    have e2 : (a + 1) * (2 * b) = 2 * (b * a) + 2 * b := by ring
    rw [e1, e2]
    omega
  have h1 : (1 : Int) ≤ a := ha
  exact max_le h1 (by omega)

/-- A resized image fits within every positive argument of `Resize`. -/
theorem resizeBounds_fits (aspect : Int → Int → Int → Int) (srcW srcH width height : Int) :
    (0 < width → (resizeBounds aspect srcW srcH width height).1 ≤ width) ∧
      (0 < height → (resizeBounds aspect srcW srcH width height).2 ≤ height) := by
  unfold resizeBounds
  split_ifs <;> refine ⟨fun h => ?_, fun h => ?_⟩ <;> dsimp only <;> omega

/-- Resizing an upload that exceeds a maximum does not enlarge it, the stretched case
apart. -/
theorem resizeBounds_le (aspect : Int → Int → Int → Int) (hA : AspectBound aspect)
    (w h maxW maxH : Int) (hw : 0 ≤ w) (hh : 0 ≤ h)
    (hex : (maxW > 0 ∧ w > maxW) ∨ (maxH > 0 ∧ h > maxH))
    (hns : ¬ (0 < maxW ∧ 0 < maxH ∧
      ((w > maxW ∧ 0 < h ∧ h < maxH) ∨ (h > maxH ∧ 0 < w ∧ w < maxW)))) :
    (resizeBounds aspect w h maxW maxH).1 ≤ w ∧ (resizeBounds aspect w h maxW maxH).2 ≤ h := by
  have h1 := hA maxH w h
  have h2 := hA maxW h w
  unfold resizeBounds
  split_ifs <;> dsimp only <;> constructor <;> omega

/-- In the stretched case the resized image is exactly the maximum. -/
theorem resizeBounds_exact (aspect : Int → Int → Int → Int) (w h maxW maxH : Int)
    (hW : 0 < maxW) (hH : 0 < maxH) (hw : 0 < w) (hh : 0 < h) :
    resizeBounds aspect w h maxW maxH = (maxW, maxH) := by
  unfold resizeBounds
  rw [if_neg (by omega), if_neg (by omega), if_neg (by omega)]
  have e1 : maxW ≠ 0 := by omega
  have e2 : maxH ≠ 0 := by omega
  simp [e1, e2]

/-! ## The claims -/

/-- C1. For a lower-cased leaf name `p ++ "__" ++ W ++ s ++ H ++ e` (no `/`, fixed by
`ToLower`), with `p` non-empty, `W` and `H` decimal numerals that fit an `int`, `s` one of
`x`, `z`, and `e` a dot followed by characters without a dot and without `"__"`,
`getNameAndSize` returns the name `p ++ e` and the directive with `Width = W`,
`Height = H` and `Option = 0` for `x`, `1` for `z`. -/
theorem C1_getNameAndSize_directive (lower : Char → Char) (p W H r : List Char) (s : Char)
    (hp : p ≠ []) (hW : isNumeral W) (hWfit : decVal W < 2 ^ 63)
    (hH : isNumeral H) (hHfit : decVal H < 2 ^ 63)
    (hs : s = 'x' ∨ s = 'z') (hr : '.' ∉ r) (he : ¬ delim <:+: '.' :: r)
    (hleaf : '/' ∉ p ++ delim ++ W ++ [s] ++ H ++ '.' :: r)
    (hlow : ToLower lower (p ++ delim ++ W ++ [s] ++ H ++ '.' :: r) =
      p ++ delim ++ W ++ [s] ++ H ++ '.' :: r) :
    getNameAndSize lower (p ++ delim ++ W ++ [s] ++ H ++ '.' :: r) =
      some (p ++ '.' :: r,
        some ⟨(decVal W : Int), (decVal H : Int), if s = 'x' then 0 else 1⟩) := by
  have hn : p ++ delim ++ W ++ [s] ++ H ++ '.' :: r =
      p ++ delim ++ ((W ++ s :: H) ++ '.' :: r) := by simp [List.append_assoc]
  rw [hn] at hleaf hlow ⊢
  have hsl : '/' ∉ r := fun h => hleaf (by simp [h])
  have hlowp : ToLower lower p = p := by
    rw [List.append_assoc] at hlow
    exact (ToLower_fixed_append lower _ _ hlow).1
  have hlowe : ToLower lower ('.' :: r) = '.' :: r := by
    rw [← List.append_assoc] at hlow
    exact (ToLower_fixed_append lower _ _ hlow).2
  have hWu : '_' ∉ W := not_mem_of_digits W '_' hW.2 (Or.inr (by decide))
  have hHu : '_' ∉ H := not_mem_of_digits H '_' hH.2 (Or.inr (by decide))
  have hsu : s ≠ '_' := by rcases hs with rfl | rfl <;> decide
  have htu : '_' ∉ W ++ s :: H := by
    simp only [List.mem_append, List.mem_cons, not_or]
    exact ⟨hWu, fun e => hsu e.symm, hHu⟩
  obtain ⟨hLI, hExt, hreq⟩ := shape_facts lower p (W ++ s :: H) r htu hr hsl he hlowe
  have hpos : 0 < LastIndex (p ++ delim ++ ((W ++ s :: H) ++ '.' :: r)) delim := by
    rw [hLI]
    have := List.length_pos.mpr hp
    omega
  have hWx : 'x' ∉ W := not_mem_of_digits W 'x' hW.2 (Or.inr (by decide))
  have hHx : 'x' ∉ H := not_mem_of_digits H 'x' hH.2 (Or.inr (by decide))
  have hWz : 'z' ∉ W := not_mem_of_digits W 'z' hW.2 (Or.inr (by decide))
  have hHz : 'z' ∉ H := not_mem_of_digits H 'z' hH.2 (Or.inr (by decide))
  have hps : parseSize (W ++ s :: H) =
      some (some ⟨(decVal W : Int), (decVal H : Int), if s = 'x' then 0 else 1⟩) := by
    rcases hs with rfl | rfl
    · have hsplit : Split (W ++ 'x' :: H) 'x' = W :: H :: [] := by
        rw [Split_prefix_sep _ _ _ hWx, Split_of_not_mem _ _ hHx]
      rw [parseSize_x _ W H [] (by simp) hsplit, Atoi_numeral W hW hWfit,
        Atoi_numeral H hH hHfit]
      simp
    · have hsplit : Split (W ++ 'z' :: H) 'z' = W :: H :: [] := by
        rw [Split_prefix_sep _ _ _ hWz, Split_of_not_mem _ _ hHz]
      have hx : 'x' ∉ W ++ 'z' :: H := by
        simp only [List.mem_append, List.mem_cons, not_or]
        exact ⟨hWx, by decide, hHx⟩
      rw [parseSize_z _ W H [] hx (by simp) hsplit, Atoi_numeral W hW hWfit,
        Atoi_numeral H hH hHfit]
      simp
  rw [getNameAndSize_of_pos lower _ _ _ hpos hreq hps, hLI, hExt, hlowe]
  have htake : (p ++ delim ++ ((W ++ s :: H) ++ '.' :: r)).take ((p.length : Int)).toNat
      = p := by
    simp [List.append_assoc]
  rw [htake, ToLower_append, hlowp, hlowe]

/-- The two examples of C1: `"pic__100x200.png"` and `"pic__50z50.jpg"`. -/
theorem C1_getNameAndSize_directive_witness :
    getNameAndSize asciiLower "pic__100x200.png".toList =
        some ("pic.png".toList, some ⟨100, 200, 0⟩) ∧
      getNameAndSize asciiLower "pic__50z50.jpg".toList =
        some ("pic.jpg".toList, some ⟨50, 50, 1⟩) :=
  ⟨C1_getNameAndSize_directive asciiLower "pic".toList "100".toList "200".toList
      "png".toList 'x' (by decide) (by unfold isNumeral isDigit; decide) (by decide)
      (by unfold isNumeral isDigit; decide) (by decide) (Or.inl rfl) (by decide) (by decide)
      (by decide) rfl,
    C1_getNameAndSize_directive asciiLower "pic".toList "50".toList "50".toList
      "jpg".toList 'z' (by decide) (by unfold isNumeral isDigit; decide) (by decide)
      (by unfold isNumeral isDigit; decide) (by decide) (Or.inr rfl) (by decide) (by decide)
      (by decide) rfl⟩

/-- C4. A `rawName` that does not contain `"__"`, or whose only `"__"` starts at index 0,
is returned unchanged and without a directive. -/
theorem C4_getNameAndSize_unchanged (lower : Char → Char) (rawName : List Char)
    (h : ¬ delim <:+: rawName ∨ (delim <+: rawName ∧ ¬ delim <:+: rawName.tail)) :
    getNameAndSize lower rawName = some (rawName, none) := by
  apply getNameAndSize_of_nonpos
  rcases h with h | ⟨hpre, htail⟩
  · rw [(LastIndex_eq_neg_one_iff rawName delim (by simp [delim])).mpr h]
    omega
  · rw [LastIndex_eq_zero rawName delim (by simp [delim]) hpre htail]

/-- The example of C4: `"plainname.png"` has no delimiter. -/
theorem C4_getNameAndSize_unchanged_witness :
    getNameAndSize asciiLower "plainname.png".toList = some ("plainname.png".toList, none) :=
  C4_getNameAndSize_unchanged asciiLower "plainname.png".toList (Or.inl (by decide))

/-- C5, as stated, fails: in `"pic__abc.Xx"` the last `"__"` is at 3, before the extension
`".Xx"`, and the text between them, `"abc"`, has neither `x` nor `z`; the lower-cased
extension is not a suffix, nothing is trimmed, and the `x` of the extension yields the
directive `{0, 0, 0}`. -/
theorem C5_counterexample :
    LastIndex "pic__abc.Xx".toList delim = 3 ∧
      Ext "pic__abc.Xx".toList = ".Xx".toList ∧
      textBetween "pic__abc.Xx".toList = "abc".toList ∧
      'x' ∉ "abc".toList ∧ 'z' ∉ "abc".toList ∧
      getNameAndSize asciiLower "pic__abc.Xx".toList =
        some ("pic.xx".toList, some ⟨0, 0, 0⟩) ∧
      (some ⟨0, 0, 0⟩ : Option Size) ≠ none :=
  ⟨rfl, rfl, rfl, by decide, by decide, rfl, by decide⟩

/-- C5, amended. For every `rawName` whose last `"__"` is at a position > 0 and lies before
the extension, and whose extension is already lower-case, if the text between that
delimiter and the extension contains neither `x` nor `z`, `getNameAndSize` returns
`ToLower (prefix ++ extension)` and no directive. -/
theorem C5_getNameAndSize_no_separator (lower : Char → Char) (rawName : List Char)
    (hpos : 0 < LastIndex rawName delim)
    (hbefore : (LastIndex rawName delim).toNat + 2 ≤ rawName.length - (Ext rawName).length)
    (hext : ToLower lower (Ext rawName) = Ext rawName)
    (hx : 'x' ∉ textBetween rawName) (hz : 'z' ∉ textBetween rawName) :
    getNameAndSize lower rawName =
      some (ToLower lower (rawName.take (LastIndex rawName delim).toNat ++ Ext rawName),
        none) := by
  have hreq : reqSizeOf lower rawName = some (textBetween rawName) := by
    unfold reqSizeOf textBetween
    simp only [hext]
    rw [TrimSuffix_of_suffix _ _ (Ext_suffix rawName)]
    have hlen : ¬ (rawName.take (rawName.length - (Ext rawName).length)).length <
        (LastIndex rawName delim).toNat + 2 := by
      rw [List.length_take]
      omega
    rw [if_neg hlen]
  rw [getNameAndSize_of_pos lower _ _ _ hpos hreq (parseSize_neither _ hx hz), hext]

/-- The example of C5: `"pic__abc.png"`, whose extension is lower-case. -/
theorem C5_getNameAndSize_no_separator_witness :
    getNameAndSize asciiLower "pic__abc.png".toList = some ("pic.png".toList, none) :=
  C5_getNameAndSize_no_separator asciiLower "pic__abc.png".toList
    (by rw [show LastIndex "pic__abc.png".toList delim = 3 from rfl]; decide)
    (by rw [show LastIndex "pic__abc.png".toList delim = 3 from rfl,
      show Ext "pic__abc.png".toList = ".png".toList from rfl]; decide)
    rfl
    (by rw [show textBetween "pic__abc.png".toList = "abc".toList from rfl]; decide)
    (by rw [show textBetween "pic__abc.png".toList = "abc".toList from rfl]; decide)

/-- C10. `getNameAndSize` is not total: in `"a.b__c"` the last `"__"` is at 3 and the
extension is `".b__c"`, so the trimmed `basename` is `"a"` and the slice
`basename[delimiterPos+2:]` is out of range. -/
theorem C10_getNameAndSize_panics :
    LastIndex "a.b__c".toList delim = 3 ∧
      Ext "a.b__c".toList = ".b__c".toList ∧
      TrimSuffix "a.b__c".toList (ToLower asciiLower ".b__c".toList) = "a".toList ∧
      getNameAndSize asciiLower "a.b__c".toList = none :=
  ⟨rfl, rfl, rfl, rfl⟩

set_option maxRecDepth 8000 in
/-- C6, as stated, fails: the width token `"99999999999999999999"` is out of the `int`
range, `Atoi` reports `ErrRange` and returns the largest `int`, and this value, not 0, is
the `Width` of the directive. -/
theorem C6_counterexample :
    Atoi "99999999999999999999".toList = (9223372036854775807, some NumError.ErrRange) ∧
      getNameAndSize asciiLower "pic__99999999999999999999x200.png".toList =
        some ("pic.png".toList, some ⟨9223372036854775807, 200, 0⟩) ∧
      (⟨9223372036854775807, 200, 0⟩ : Size).Width ≠ 0 :=
  ⟨rfl, rfl, by decide⟩

/-- C6, amended. When the size text after a `"__"` at position > 0 contains `x` or `z`,
`getNameAndSize` returns a directive; its `Width` and `Height` are what `Atoi` returns on
the first and on the second piece of the size text, each on its own: 0 when `Atoi` reports
a syntax error, the nearest bound of `int` when it reports a range error. -/
theorem C6_parse_failure_fields (lower : Char → Char) (rawName reqSize : List Char)
    (hpos : 0 < LastIndex rawName delim) (hreq : reqSizeOf lower rawName = some reqSize)
    (hsep : 'x' ∈ reqSize ∨ 'z' ∈ reqSize) :
    ∃ name d sep w h rest, getNameAndSize lower rawName = some (name, some d) ∧
      (sep = 'x' ∨ sep = 'z') ∧ Split reqSize sep = w :: h :: rest ∧
      d.Width = (Atoi w).1 ∧ d.Height = (Atoi h).1 ∧
      ((Atoi w).2 = some NumError.ErrSyntax → d.Width = 0) ∧
      ((Atoi h).2 = some NumError.ErrSyntax → d.Height = 0) ∧
      ((Atoi w).2 = some NumError.ErrRange → d.Width = 2 ^ 63 - 1 ∨ d.Width = -2 ^ 63) ∧
      ((Atoi h).2 = some NumError.ErrRange → d.Height = 2 ^ 63 - 1 ∨ d.Height = -2 ^ 63) := by
  have hsyn : ∀ t : List Char, (Atoi t).2 = some NumError.ErrSyntax → (Atoi t).1 = 0 := by
    intro t ht
    unfold Atoi at ht ⊢
    rcases ParseInt_cases t with ⟨_, hv⟩ | ⟨he, _⟩ | ⟨he, _⟩
    · exact hv
    · rw [he] at ht; cases ht
    · rw [he] at ht; cases ht
  have hrng : ∀ t : List Char, (Atoi t).2 = some NumError.ErrRange →
      (Atoi t).1 = 2 ^ 63 - 1 ∨ (Atoi t).1 = -2 ^ 63 := by
    intro t ht
    unfold Atoi at ht ⊢
    rcases ParseInt_cases t with ⟨he, _⟩ | ⟨_, hv⟩ | ⟨he, _⟩
    · rw [he] at ht; cases ht
    · rcases hv with ⟨hv, _⟩ | ⟨hv, _⟩
      · left; exact hv
      · right; exact hv
    · rw [he] at ht; cases ht
  rcases parseSize_cases reqSize with ⟨_, hx, hz⟩ | ⟨sep, opt, w, h, rest, hso, _, hsp, hps⟩
  · rcases hsep with h | h
    · exact absurd h hx
    · exact absurd h hz
  · refine ⟨_, ⟨(Atoi w).1, (Atoi h).1, opt⟩, sep, w, h, rest,
      getNameAndSize_of_pos lower _ _ _ hpos hreq hps, ?_, hsp, rfl, rfl,
      hsyn w, hsyn h, hrng w, hrng h⟩
    rcases hso with ⟨h1, _⟩ | ⟨h1, _⟩
    · left; exact h1
    · right; exact h1

/-- The example of C6: `"pic__x200.png"`, whose size text is `"x200"`. -/
theorem C6_parse_failure_fields_witness :
    ∃ name d sep w h rest,
      getNameAndSize asciiLower "pic__x200.png".toList = some (name, some d) ∧
      (sep = 'x' ∨ sep = 'z') ∧ Split "x200".toList sep = w :: h :: rest ∧
      d.Width = (Atoi w).1 ∧ d.Height = (Atoi h).1 ∧
      ((Atoi w).2 = some NumError.ErrSyntax → d.Width = 0) ∧
      ((Atoi h).2 = some NumError.ErrSyntax → d.Height = 0) ∧
      ((Atoi w).2 = some NumError.ErrRange → d.Width = 2 ^ 63 - 1 ∨ d.Width = -2 ^ 63) ∧
      ((Atoi h).2 = some NumError.ErrRange → d.Height = 2 ^ 63 - 1 ∨ d.Height = -2 ^ 63) :=
  C6_parse_failure_fields asciiLower "pic__x200.png".toList "x200".toList
    (by rw [show LastIndex "pic__x200.png".toList delim = 3 from rfl]; decide) rfl
    (Or.inl (by decide))

/-- C7, as stated, fails: `Atoi` accepts a sign, and `"pic__-5x10.png"` yields the
directive of `Width` -5. -/
theorem C7_counterexample :
    getNameAndSize asciiLower "pic__-5x10.png".toList =
        some ("pic.png".toList, some ⟨-5, 10, 0⟩) ∧
      (⟨-5, 10, 0⟩ : Size).Width < 0 :=
  ⟨rfl, by decide⟩

/-- C7, amended. The `Width` and `Height` of a returned directive are integers of the
`int` range, each non-negative unless its token (the first, the second piece of the size
text) starts with `-`; its `Option` is 0 or 1. -/
theorem C7_directive_ranges (lower : Char → Char) (rawName name : List Char) (d : Size)
    (hres : getNameAndSize lower rawName = some (name, some d)) :
    (-2 ^ 63 ≤ d.Width ∧ d.Width ≤ 2 ^ 63 - 1) ∧
    (-2 ^ 63 ≤ d.Height ∧ d.Height ≤ 2 ^ 63 - 1) ∧
    (d.Option = 0 ∨ d.Option = 1) ∧
    ∃ reqSize sep w h rest, reqSizeOf lower rawName = some reqSize ∧
      (sep = 'x' ∨ sep = 'z') ∧ Split reqSize sep = w :: h :: rest ∧
      (w.head? ≠ some '-' → 0 ≤ d.Width) ∧ (h.head? ≠ some '-' → 0 ≤ d.Height) := by
  have hb : ∀ t : List Char, -2 ^ 63 ≤ (Atoi t).1 ∧ (Atoi t).1 ≤ 2 ^ 63 - 1 ∧
      (t.head? ≠ some '-' → 0 ≤ (Atoi t).1) := by
    intro t
    unfold Atoi
    rcases ParseInt_cases t with ⟨_, hv⟩ | ⟨_, hv⟩ | ⟨_, h1, h2, h3⟩
    · rw [hv]; exact ⟨by norm_num, by norm_num, fun _ => le_refl _⟩
    · rcases hv with ⟨hv, _⟩ | ⟨hv, hm⟩
      · rw [hv]; exact ⟨by norm_num, by norm_num, fun _ => by norm_num⟩
      · rw [hv]; exact ⟨by norm_num, by norm_num, fun hn => absurd hm hn⟩
    · exact ⟨h1, h2, h3⟩
  obtain ⟨_, reqSize, sep, w, h, rest, hreq, hso, hsp, hw, hh⟩ :=
    getNameAndSize_directive_inv lower rawName name d hres
  rw [hw, hh]
  refine ⟨⟨(hb w).1, (hb w).2.1⟩, ⟨(hb h).1, (hb h).2.1⟩, ?_,
    reqSize, sep, w, h, rest, hreq, ?_, hsp, (hb w).2.2, (hb h).2.2⟩
  · rcases hso with ⟨_, h2⟩ | ⟨_, h2⟩
    · left; exact h2
    · right; exact h2
  · rcases hso with ⟨h1, _⟩ | ⟨h1, _⟩
    · left; exact h1
    · right; exact h1

/-- An instance of C7 with a negative width: `"pic__-5x10.jpg"`. -/
theorem C7_directive_ranges_witness :
    (-2 ^ 63 ≤ (⟨-5, 10, 0⟩ : Size).Width ∧ (⟨-5, 10, 0⟩ : Size).Width ≤ 2 ^ 63 - 1) ∧
    (-2 ^ 63 ≤ (⟨-5, 10, 0⟩ : Size).Height ∧ (⟨-5, 10, 0⟩ : Size).Height ≤ 2 ^ 63 - 1) ∧
    ((⟨-5, 10, 0⟩ : Size).Option = 0 ∨ (⟨-5, 10, 0⟩ : Size).Option = 1) ∧
    ∃ reqSize sep w h rest, reqSizeOf asciiLower "pic__-5x10.jpg".toList = some reqSize ∧
      (sep = 'x' ∨ sep = 'z') ∧ Split reqSize sep = w :: h :: rest ∧
      (w.head? ≠ some '-' → 0 ≤ (⟨-5, 10, 0⟩ : Size).Width) ∧
      (h.head? ≠ some '-' → 0 ≤ (⟨-5, 10, 0⟩ : Size).Height) :=
  C7_directive_ranges asciiLower "pic__-5x10.jpg".toList "pic.jpg".toList ⟨-5, 10, 0⟩ rfl

/-- C3, as stated, fails: a tab is white space, `convertPath` trims the space only, and the
folder `"\ta"` is kept with its tab where the statement gives `"a"`. -/
theorem C3_counterexample :
    isSpace '\t' = true ∧
      convertPath asciiLower "/\ta/x".toList = some ("x".toList, "\ta".toList) ∧
      resolveSpec isSpace asciiLower "/\ta/x".toList = ("x".toList, "a".toList) ∧
      ("x".toList, "\ta".toList) ≠ ("x".toList, "a".toList) :=
  ⟨rfl, rfl, rfl, by decide⟩

/-- C3, amended. For every URL path `u`, `convertPath u` returns (no failure, also for the
empty path, `/` and paths ending in `/`), and it returns `(name, path)` where, splitting
`u` on `/`, `path` is the comma-join, in order, of the lower-cased segments other than the
last one after trimming the space character from both ends of each and dropping those that
are then empty, and `name` is the last segment lower-cased and otherwise verbatim. -/
theorem C3_convertPath_resolves (lower : Char → Char) (u : List Char) :
    convertPath lower u = some (resolveSpec (fun c => c == ' ') lower u) ∧
      convertPath asciiLower "/A/ b /c.JPG".toList = some ("c.jpg".toList, "a,b".toList) ∧
      convertPath asciiLower "/x.jpg".toList = some ("x.jpg".toList, []) ∧
      convertPath asciiLower [] = some ([], []) ∧
      convertPath asciiLower "/".toList = some ([], []) ∧
      convertPath asciiLower "/a/".toList = some ([], "a".toList) :=
  ⟨convertPath_eq lower u, rfl, rfl, rfl, rfl, rfl⟩

/-- C2. A request for a sized variant looks up the document of the plain request: for the
URL paths `f ++ "/" ++ p ++ "__" ++ W ++ s ++ H ++ e` and `f ++ "/" ++ p ++ e`, in any
letter case, `convertPath` gives `(n, d)` and `(n', d)` with the same folder key `d`, the
name `getNameAndSize` returns for `n` is `n'`, and the key `handleGET` looks up for the
variant is the key `handlePOST` stores the plain URL under. -/
theorem C2_variant_key_eq_plain_key (lower : Char → Char) (hl : LowerOK lower)
    (f p W H r : List Char) (s : Char) (hp : p ≠ []) (hps : '/' ∉ p)
    (hW : isNumeral W) (hH : isNumeral H) (hs : s ∈ ['x', 'z', 'X', 'Z'])
    (hr : '.' ∉ r) (hrs : '/' ∉ r) (he : ¬ delim <:+: '.' :: r) :
    ∃ n d n' size,
      convertPath lower (f ++ '/' :: (p ++ delim ++ W ++ [s] ++ H ++ '.' :: r)) =
        some (n, d) ∧
      convertPath lower (f ++ '/' :: (p ++ '.' :: r)) = some (n', d) ∧
      getNameAndSize lower n = some (n', size) ∧
      handleGETKey lower (f ++ '/' :: (p ++ delim ++ W ++ [s] ++ H ++ '.' :: r)) =
        some (some (n', d)) ∧
      handlePOSTKey lower (f ++ '/' :: (p ++ '.' :: r)) = some (n', d) := by
  obtain ⟨hidem, hu, hdot, hslash⟩ := hl
  have hsne : s ≠ '_' ∧ s ≠ '/' := by
    simp only [List.mem_cons, List.mem_singleton, List.not_mem_nil, or_false] at hs
    rcases hs with rfl | rfl | rfl | rfl <;> decide
  have hWu : '_' ∉ W := not_mem_of_digits W '_' hW.2 (Or.inr (by decide))
  have hHu : '_' ∉ H := not_mem_of_digits H '_' hH.2 (Or.inr (by decide))
  have hWs : '/' ∉ W := not_mem_of_digits W '/' hW.2 (Or.inl (by decide))
  have hHs : '/' ∉ H := not_mem_of_digits H '/' hH.2 (Or.inl (by decide))
  have hn : p ++ delim ++ W ++ [s] ++ H ++ '.' :: r =
      p ++ delim ++ ((W ++ s :: H) ++ '.' :: r) := by simp [List.append_assoc]
  rw [hn]
  have htu : '_' ∉ W ++ s :: H := by
    simp only [List.mem_append, List.mem_cons, not_or]
    exact ⟨hWu, fun e => hsne.1 e.symm, hHu⟩
  have hleaf1 : '/' ∉ p ++ delim ++ ((W ++ s :: H) ++ '.' :: r) := by
    simp only [List.mem_append, List.mem_cons, not_or, delim]
    exact ⟨⟨hps, by simp⟩, ⟨hWs, fun e => hsne.2 e.symm, hHs⟩, by decide, hrs⟩
  have hleaf2 : '/' ∉ p ++ '.' :: r := by
    simp only [List.mem_append, List.mem_cons, not_or]
    exact ⟨hps, by decide, hrs⟩
  have hc1 := convertPath_leaf lower f _ hleaf1
  have hc2 := convertPath_leaf lower f _ hleaf2
  have hlu : lower '_' = '_' := (hu '_').mpr rfl
  have hld : lower '.' = '.' := (hdot '.').mpr rfl
  have hlow : ToLower lower (p ++ delim ++ ((W ++ s :: H) ++ '.' :: r)) =
      ToLower lower p ++ delim ++ (ToLower lower (W ++ s :: H) ++ '.' :: ToLower lower r) := by
    simp [ToLower, delim, hlu, hld]
  have hlowe : ToLower lower ('.' :: ToLower lower r) = '.' :: ToLower lower r := by
    simp [ToLower, hld, hidem]
  have hsh := shape_facts lower (ToLower lower p) (ToLower lower (W ++ s :: H))
    (ToLower lower r)
    (fun h => htu (mem_ToLower_reflect lower '_' hu _ h))
    (fun h => hr (mem_ToLower_reflect lower '.' hdot _ h))
    (fun h => hrs (mem_ToLower_reflect lower '/' hslash _ h))
    (fun h => he (delim_infix_ToLower_reflect lower hu ('.' :: r)
      (by simpa [ToLower, hld] using h)))
    hlowe
  obtain ⟨hLI, hExt, hreq⟩ := hsh
  have hpos : 0 < LastIndex (ToLower lower p ++ delim ++
      (ToLower lower (W ++ s :: H) ++ '.' :: ToLower lower r)) delim := by
    rw [hLI]
    have := List.length_pos.mpr hp
    simp only [ToLower, List.length_map]
    omega
  obtain ⟨size, hps2⟩ : ∃ size, parseSize (ToLower lower (W ++ s :: H)) = some size := by
    rcases parseSize_cases (ToLower lower (W ++ s :: H)) with ⟨h, _⟩ | ⟨_, _, _, _, _, _, _, _, h⟩
    · exact ⟨_, h⟩
    · exact ⟨_, h⟩
  have hg := getNameAndSize_of_pos lower _ _ _ hpos hreq hps2
  rw [hLI, hExt, hlowe] at hg
  have htake : (ToLower lower p ++ delim ++
      (ToLower lower (W ++ s :: H) ++ '.' :: ToLower lower r)).take
        (((ToLower lower p).length : Int)).toNat = ToLower lower p := by
    simp [List.append_assoc]
  have hname : ToLower lower (ToLower lower p ++ '.' :: ToLower lower r) =
      ToLower lower (p ++ '.' :: r) := by
    have hcomp : lower ∘ lower = lower := funext hidem
    simp [ToLower, hld, hcomp]
  rw [htake, hname, ← hlow] at hg
  refine ⟨_, _, _, size, hc1, hc2, hg, ?_, hc2⟩
  have hfav : ToLower lower (p ++ delim ++ ((W ++ s :: H) ++ '.' :: r)) ≠
      "favicon.ico".toList := by
    intro e
    have hmem : '_' ∈ ToLower lower (p ++ delim ++ ((W ++ s :: H) ++ '.' :: r)) := by
      rw [hlow]
      simp [delim]
    rw [e] at hmem
    exact absurd hmem (by decide)
  unfold handleGETKey
  rw [hc1]
  simp only [hfav, if_false, hg]

/-- An instance of C2 in mixed case: `/Album/Pic__100X200.PNG` and `/Album/Pic.PNG`. -/
theorem C2_variant_key_eq_plain_key_witness :
    ∃ n d n' size,
      convertPath asciiLower ("/Album".toList ++ '/' ::
          ("Pic".toList ++ delim ++ "100".toList ++ ['X'] ++ "200".toList ++
            '.' :: "PNG".toList)) = some (n, d) ∧
      convertPath asciiLower ("/Album".toList ++ '/' :: ("Pic".toList ++ '.' :: "PNG".toList))
        = some (n', d) ∧
      getNameAndSize asciiLower n = some (n', size) ∧
      handleGETKey asciiLower ("/Album".toList ++ '/' ::
          ("Pic".toList ++ delim ++ "100".toList ++ ['X'] ++ "200".toList ++
            '.' :: "PNG".toList)) = some (some (n', d)) ∧
      handlePOSTKey asciiLower ("/Album".toList ++ '/' ::
          ("Pic".toList ++ '.' :: "PNG".toList)) = some (n', d) :=
  C2_variant_key_eq_plain_key asciiLower asciiLower_ok "/Album".toList "Pic".toList
    "100".toList "200".toList "PNG".toList 'X' (by decide) (by decide)
    (by unfold isNumeral isDigit; decide) (by unfold isNumeral isDigit; decide) (by decide)
    (by decide) (by decide) (by decide)

/-- C8, as stated, fails: `handlePOST` stores the upload of `/img/photo__300x200.jpg` under
the name `photo__300x200.jpg`, directive included; `getNameAndSize` strips it, and the GET
of the same URL looks up `photo.jpg`, another key. -/
theorem C8_counterexample :
    handlePOSTKey asciiLower "/img/photo__300x200.jpg".toList =
        some ("photo__300x200.jpg".toList, "img".toList) ∧
      getNameAndSize asciiLower "photo__300x200.jpg".toList =
        some ("photo.jpg".toList, some ⟨300, 200, 0⟩) ∧
      handleGETKey asciiLower "/img/photo__300x200.jpg".toList =
        some (some ("photo.jpg".toList, "img".toList)) ∧
      "photo.jpg".toList ≠ "photo__300x200.jpg".toList :=
  ⟨rfl, rfl, rfl, by decide⟩

/-- C8, amended. For every URL path `u` whose stored name (the name component of
`convertPath u`) has no `"__"` after its first character, `getNameAndSize` returns that
name unchanged and with no directive; when the name is not `favicon.ico` either, the GET
of `u` looks up exactly the `(name, path)` key that the POST of `u` wrote. -/
theorem C8_stored_name_lookup (lower : Char → Char) (u name path : List Char)
    (hpost : handlePOSTKey lower u = some (name, path))
    (hd : ¬ delim <:+: name.tail) :
    getNameAndSize lower name = some (name, none) ∧
      (name ≠ "favicon.ico".toList → handleGETKey lower u = some (some (name, path))) := by
  have hg : getNameAndSize lower name = some (name, none) := by
    apply getNameAndSize_of_nonpos
    by_cases hpre : delim <+: name
    · rw [LastIndex_eq_zero name delim (by simp [delim]) hpre hd]
    · have hnin : ¬ delim <:+: name := by
        cases name with
        | nil => simpa using hpre
        | cons c cs =>
          rw [List.infix_cons_iff]
          rintro (h | h)
          · exact hpre h
          · exact hd h
      rw [(LastIndex_eq_neg_one_iff name delim (by simp [delim])).mpr hnin]
      omega
  refine ⟨hg, fun hfav => ?_⟩
  unfold handlePOSTKey at hpost
  unfold handleGETKey
  rw [hpost]
  simp only [hfav, if_false, hg]

/-- An instance of C8 with the delimiter at index 0: `/Img/__Photo.JPG`. -/
theorem C8_stored_name_lookup_witness :
    getNameAndSize asciiLower "__photo.jpg".toList = some ("__photo.jpg".toList, none) ∧
      ("__photo.jpg".toList ≠ "favicon.ico".toList →
        handleGETKey asciiLower "/Img/__Photo.JPG".toList =
          some (some ("__photo.jpg".toList, "img".toList))) :=
  C8_stored_name_lookup asciiLower "/Img/__Photo.JPG".toList "__photo.jpg".toList
    "img".toList rfl (by decide)

/-- C9, as stated, fails: with the maximum 1000 by 1000, an upload of 2000 by 10 exceeds
the width, `imaging.Resize(origin, 1000, 1000)` returns an image of 1000 by 1000, and the
stored height 1000 is larger than the height 10 of the upload. -/
theorem C9_counterexample :
    storedImage sizeResize Prod.fst Prod.snd 1000 1000 ((2000, 10) : Int × Int) =
        (1000, 1000) ∧
      ¬ ((1000 : Int) ≤ 10) :=
  ⟨rfl, by decide⟩

/-- C9, amended. For a decoded upload of size `w` by `h` and the configured maximum
(`W`, `H`), the image `handlePOST` stores is the decoded image itself whenever neither
(`W > 0` and `w > W`) nor (`H > 0` and `h > H`) holds, and otherwise the result of
`imaging.Resize(origin, W, H)`; it fits within every positive maximum; its width is `≤ w`
and its height `≤ h`, except when both maxima are positive, one is exceeded and the other
axis of the upload is below its maximum: then the stored image is exactly `W` by `H`, and
that axis is enlarged. -/
theorem C9_stored_image_size {Img : Type} (aspect : Int → Int → Int → Int)
    (Dx Dy : Img → Int) (Resize : Img → Int → Int → Img)
    (hA : AspectBound aspect) (hR : ResizeContract aspect Dx Dy Resize)
    (maxW maxH : Int) (origin : Img) (hw : 0 ≤ Dx origin) (hh : 0 ≤ Dy origin) :
    (¬ exceedsStoredSize Dx Dy maxW maxH origin →
      storedImage Resize Dx Dy maxW maxH origin = origin) ∧
    (exceedsStoredSize Dx Dy maxW maxH origin →
      storedImage Resize Dx Dy maxW maxH origin = Resize origin maxW maxH) ∧
    (0 < maxW → Dx (storedImage Resize Dx Dy maxW maxH origin) ≤ maxW) ∧
    (0 < maxH → Dy (storedImage Resize Dx Dy maxW maxH origin) ≤ maxH) ∧
    (¬ stretchedAxis Dx Dy maxW maxH origin →
      Dx (storedImage Resize Dx Dy maxW maxH origin) ≤ Dx origin ∧
        Dy (storedImage Resize Dx Dy maxW maxH origin) ≤ Dy origin) ∧
    (stretchedAxis Dx Dy maxW maxH origin →
      Dx (storedImage Resize Dx Dy maxW maxH origin) = maxW ∧
        Dy (storedImage Resize Dx Dy maxW maxH origin) = maxH ∧
        (Dx origin < Dx (storedImage Resize Dx Dy maxW maxH origin) ∨
          Dy origin < Dy (storedImage Resize Dx Dy maxW maxH origin))) := by
  have hDx : ∀ img width height,
      Dx (Resize img width height) = (resizeBounds aspect (Dx img) (Dy img) width height).1 :=
    fun img width height => congrArg Prod.fst (hR img width height)
  have hDy : ∀ img width height,
      Dy (Resize img width height) = (resizeBounds aspect (Dx img) (Dy img) width height).2 :=
    fun img width height => congrArg Prod.snd (hR img width height)
  refine ⟨fun hc => by simp [storedImage, hc], fun hc => by simp [storedImage, hc],
    ?_, ?_, ?_, ?_⟩
  · intro hpos
    unfold storedImage
    split_ifs with hc
    · rw [hDx]; exact (resizeBounds_fits aspect _ _ _ _).1 hpos
    · by_contra hgt
      exact hc (Or.inl ⟨hpos, by omega⟩)
  · intro hpos
    unfold storedImage
    split_ifs with hc
    · rw [hDy]; exact (resizeBounds_fits aspect _ _ _ _).2 hpos
    · by_contra hgt
      exact hc (Or.inr ⟨hpos, by omega⟩)
  · intro hns
    unfold storedImage
    split_ifs with hc
    · rw [hDx, hDy]
      exact resizeBounds_le aspect hA _ _ _ _ hw hh hc hns
    · exact ⟨le_refl _, le_refl _⟩
  · rintro ⟨hW, hH, hcase⟩
    have hc : exceedsStoredSize Dx Dy maxW maxH origin := by
      rcases hcase with ⟨h1, _, _⟩ | ⟨h1, _, _⟩
      · exact Or.inl ⟨hW, h1⟩
      · exact Or.inr ⟨hH, h1⟩
    have hwpos : 0 < Dx origin := by
      rcases hcase with ⟨h1, _, _⟩ | ⟨_, h2, _⟩ <;> omega
    have hhpos : 0 < Dy origin := by
      rcases hcase with ⟨_, h2, _⟩ | ⟨h1, _, _⟩ <;> omega
    simp only [storedImage, if_pos hc]
    rw [hDx, hDy, resizeBounds_exact aspect _ _ _ _ hW hH hwpos hhpos]
    refine ⟨rfl, rfl, ?_⟩
    rcases hcase with ⟨_, _, h3⟩ | ⟨_, _, h3⟩
    · right; exact h3
    · left; exact h3

/-- Two instances of C9 on images reduced to their size.  Under the maximum 1000 by 0
(height unbounded) the upload of 2000 by 1000 is stored as 1000 by 500, not larger on
either axis; under the maximum 1000 by 1000 the upload of 2000 by 10 is the stretched case
and is stored as 1000 by 1000. -/
theorem C9_stored_image_size_witness :
    (storedImage sizeResize Prod.fst Prod.snd 1000 0 ((2000, 1000) : Int × Int) =
        (1000, 500) ∧
      (storedImage sizeResize Prod.fst Prod.snd 1000 0 ((2000, 1000) : Int × Int)).1 ≤
        ((2000, 1000) : Int × Int).1 ∧
      (storedImage sizeResize Prod.fst Prod.snd 1000 0 ((2000, 1000) : Int × Int)).2 ≤
        ((2000, 1000) : Int × Int).2) ∧
    (stretchedAxis Prod.fst Prod.snd 1000 1000 ((2000, 10) : Int × Int) ∧
      (storedImage sizeResize Prod.fst Prod.snd 1000 1000 ((2000, 10) : Int × Int)).1 =
        1000 ∧
      (storedImage sizeResize Prod.fst Prod.snd 1000 1000 ((2000, 10) : Int × Int)).2 =
        1000 ∧
      (((2000, 10) : Int × Int).1 <
          (storedImage sizeResize Prod.fst Prod.snd 1000 1000 ((2000, 10) : Int × Int)).1 ∨
        ((2000, 10) : Int × Int).2 <
          (storedImage sizeResize Prod.fst Prod.snd 1000 1000 ((2000, 10) : Int × Int)).2)) :=
  ⟨⟨rfl,
      (C9_stored_image_size roundAspect Prod.fst Prod.snd sizeResize roundAspect_bound
        (fun _ _ _ => rfl) 1000 0 ((2000, 1000) : Int × Int) (by decide)
        (by decide)).2.2.2.2.1 (by decide)⟩,
    ⟨by decide,
      (C9_stored_image_size roundAspect Prod.fst Prod.snd sizeResize roundAspect_bound
        (fun _ _ _ => rfl) 1000 1000 ((2000, 10) : Int × Int) (by decide)
        (by decide)).2.2.2.2.2 (by decide)⟩⟩

end Imongo
